import Mathlib

/-!
# Verification of the docx_tools redaction engines

Shallow embedding of `src/redactor.py` (class `DocumentXMLRedactor`) and
`src/redactor_track_changes.py` (class `DocumentXMLTrackChangesRedactor`).

Strings are modelled as `List Char`.  Python string primitives used by the
source (`str.find`, `str.replace`, `in`, slicing with negative indices,
`str.strip`, `re.sub(r'\s+', ' ', ...)`) are given executable models named
`py...`.  XML element identity (used by `list.index` / `remove` in
`ElementTree`) is modelled by optional `Nat` keys: elements created by the
redactor carry no key, elements present when a paragraph pass starts carry
distinct keys.
-/

set_option linter.unusedVariables false

namespace DocxTools

/-! ## Model definitions -/

/-- `listSlice l a b` models the Python slice `l[a:b]` for `0 ≤ a ≤ b`
(out-of-range bounds truncate, as in Python). -/
def listSlice (l : List Char) (a b : Nat) : List Char :=
  (l.drop a).take (b - a)

/-- Normalisation of a (possibly negative) Python index against a list of
length `n`: negative indices count from the end and clamp at `0`; positive
indices clamp at `n`. -/
def pyIdx (n : Nat) (i : Int) : Nat :=
  if i < 0 then n - (-i).toNat else min i.toNat n

/-- `pySlice l a b` models the Python slice `l[a:b]` for arbitrary integer
bounds, including the negative-index convention. -/
def pySlice (l : List Char) (a b : Int) : List Char :=
  (l.take (pyIdx l.length b)).drop (pyIdx l.length a)

/-- `occursAt s p i`: the pattern `p` occurs in `s` at position `i`. -/
def occursAt (s p : List Char) (i : Nat) : Prop :=
  i + p.length ≤ s.length ∧ listSlice s i (i + p.length) = p

instance (s p : List Char) (i : Nat) : Decidable (occursAt s p i) := by
  unfold occursAt; infer_instance

/-- One step of the scan behind `str.find`: try positions `i, i+1, ...`
(`fuel` bounds the scan; callers pass enough fuel to reach `s.length`). -/
def findFromAux (s p : List Char) : Nat → Nat → Option Nat
  | 0, _ => none
  | fuel + 1, i => if occursAt s p i then some i else findFromAux s p fuel (i + 1)

/-- Model of Python `s.find(p, start)` (restricted to `start ≥ 0`):
the least position `i ≥ start` at which `p` occurs in `s`, if any.
Python returns `-1` on failure; that is modelled by `none`. -/
def pyFind (s p : List Char) (start : Nat) : Option Nat :=
  findFromAux s p (s.length + 1 - start) start

/-- Model of Python `p in s` (substring containment). -/
def pyContains (s p : List Char) : Bool :=
  (pyFind s p 0).isSome

/-- `maskRange s st n` is `s[:st] + '*'*n + s[st+n:]`, the masking of the
in-bounds span `[st, st+n)` of `s` performed by both the case-sensitive
`str.replace(p, '*'*len(p))` call and the case-insensitive
reversed-`finditer` replacement loop of `redact_document_xml`. -/
def maskRange (s : List Char) (st n : Nat) : List Char :=
  s.take st ++ List.replicate n '*' ++ s.drop (st + n)

/-- Masking every span of a list, left to right. -/
def maskSpans (s : List Char) (spans : List (Nat × Nat)) : List Char :=
  spans.foldl (fun t sp => maskRange t sp.1 sp.2) s

/-- Spans all lying inside a string of length `L`. -/
def SpansInBounds (L : Nat) (spans : List (Nat × Nat)) : Prop :=
  ∀ sp ∈ spans, sp.1 + sp.2 ≤ L

/-- The scan performed by `str.replace`: repeatedly take the leftmost
occurrence at or after `start` and resume at the end of the match (for an
empty pattern Python advances by one position).  Returns the start positions
of the replaced occurrences.  `fuel` bounds the number of iterations; the
wrapper passes enough for the scan to exhaust the string. -/
def replaceScanAux (s p : List Char) : Nat → Nat → List Nat
  | 0, _ => []
  | fuel + 1, start =>
    match pyFind s p start with
    | none => []
    | some i => i :: replaceScanAux s p fuel (i + max p.length 1)

/-- Start positions of the occurrences consumed by
`redacted_text.replace(string_to_redact, '*'*len(string_to_redact))`
(case-sensitive branch of `DocumentXMLRedactor.redact_document_xml`). -/
def replaceStarts (s p : List Char) : List Nat :=
  replaceScanAux s p (s.length + 2) 0

/-- The scan of the case-sensitive branch of
`DocumentXMLTrackChangesRedactor.redact_document_xml`:
`pos = full_text.find(p, start)` then `start = pos + 1`. -/
def tcScanAux (s p : List Char) : Nat → Nat → List Nat
  | 0, _ => []
  | fuel + 1, start =>
    match pyFind s p start with
    | none => []
    | some i => i :: tcScanAux s p fuel (i + 1)

/-- All match positions reported by the track-changes redactor's
case-sensitive `while True: pos = full_text.find(...)` loop. -/
def tcOccurrences (s p : List Char) : List Nat :=
  tcScanAux s p (s.length + 2) 0

/-- Case-insensitive occurrence: the case-folded pattern occurs at `i` in the
case-folded text (model of `re.compile(re.escape(p), re.IGNORECASE)`). -/
def ciOccursAt (s p : List Char) (i : Nat) : Prop :=
  occursAt (s.map Char.toLower) (p.map Char.toLower) i

instance (s p : List Char) (i : Nat) : Decidable (ciOccursAt s p i) := by
  unfold ciOccursAt; infer_instance

/-- The scan of `re.finditer`: leftmost case-insensitive occurrence, resume
at the end of the match (empty matches advance by one). -/
def ciScanAux (s p : List Char) : Nat → Nat → List Nat
  | 0, _ => []
  | fuel + 1, start =>
    match pyFind (s.map Char.toLower) (p.map Char.toLower) start with
    | none => []
    | some i => i :: ciScanAux s p fuel (i + max p.length 1)

/-- Start positions of the matches of the case-insensitive branch
(`pattern.finditer(redacted_text)`).  Each match has length `p.length`. -/
def ciStarts (s p : List Char) : List Nat :=
  ciScanAux s p (s.length + 2) 0

/-- Accumulator for one paragraph of
`DocumentXMLRedactor.redact_document_xml`: the working text, the spans
masked so far (ghost instrumentation: `(start, length)` pairs), and the
`replacements_made` flag. -/
structure PlainAcc where
  text : List Char
  spans : List (Nat × Nat)
  made : Bool
  deriving DecidableEq, Repr

/-- One iteration of the `for string_to_redact in strings_to_redact` loop of
`DocumentXMLRedactor.redact_document_xml`.  Case-sensitive:
`if p in t: t = t.replace(p, '*'*len(p))`; the replacement of each consumed
occurrence by a same-length run of `'*'` is the masking of its span.
Case-insensitive: every `finditer` match is replaced, from the last match to
the first (`for match in reversed(matches)`), by `'*' * len(matched_text)`;
as every replacement preserves length, this masks each match's span. -/
def redactStep (caseSensitive : Bool) (acc : PlainAcc) (p : List Char) : PlainAcc :=
  if caseSensitive then
    if pyContains acc.text p then
      let spans := (replaceStarts acc.text p).map (fun i => (i, p.length))
      { text := maskSpans acc.text spans, spans := acc.spans ++ spans, made := true }
    else acc
  else
    let spans := (ciStarts acc.text p).map (fun i => (i, p.length))
    { text := maskSpans acc.text spans.reverse,
      spans := acc.spans ++ spans,
      made := acc.made || !spans.isEmpty }

/-- The full pattern loop of `redact_document_xml` over one paragraph's
flattened text. -/
def redactFullText (caseSensitive : Bool) (t : List Char) (ps : List (List Char)) : PlainAcc :=
  ps.foldl (redactStep caseSensitive) { text := t, spans := [], made := false }

/-- `DocumentXMLRedactor._redact_text_in_elements`, main loop: each nonempty
text element receives the slice of the redacted text at its own offset range;
empty elements are skipped. -/
def redactTextInElementsAux (red : List Char) : Nat → List (List Char) → List (List Char)
  | _, [] => []
  | pos, t :: rest =>
    if t.length = 0 then t :: redactTextInElementsAux red pos rest
    else listSlice red pos (pos + t.length) :: redactTextInElementsAux red (pos + t.length) rest

/-- `DocumentXMLRedactor._redact_text_in_elements` including its early
return (`if not text_elements or original_text == redacted_text: return`). -/
def redactTextInElements (elems : List (List Char)) (original red : List Char) :
    List (List Char) :=
  if elems.isEmpty || original == red then elems
  else redactTextInElementsAux red 0 elems

/-- One paragraph of `DocumentXMLRedactor.redact_document_xml`: flatten,
run the pattern loop, and write the redacted text back into the elements.
A paragraph is modelled by the document-ordered list of its `<w:t>` texts.
Mirrors `if not full_text or not text_elements: continue`. -/
def redactParagraphPlain (caseSensitive : Bool) (ps : List (List Char))
    (elems : List (List Char)) : List (List Char) × List (Nat × Nat) × Bool :=
  let full := elems.flatten
  if full.isEmpty || elems.isEmpty then (elems, [], false)
  else
    let acc := redactFullText caseSensitive full ps
    (redactTextInElements elems full acc.text, acc.spans, acc.made)

/-- Result of the pure core of `redact_document_xml` (plain redactor): the
rewritten paragraphs and the `replacements_made` flag.  The method returns
`True` (success) on this path whether or not anything was replaced; `success`
records that. -/
structure PlainResult where
  doc : List (List (List Char))
  made : Bool
  success : Bool
  deriving DecidableEq, Repr

/-- The paragraph loop of `DocumentXMLRedactor.redact_document_xml` over a
document (list of paragraphs, each a list of `<w:t>` texts). -/
def redactDocumentXmlPlain (caseSensitive : Bool) (doc : List (List (List Char)))
    (ps : List (List Char)) : PlainResult :=
  let step := fun (acc : List (List (List Char)) × Bool) (para : List (List Char)) =>
    let r := redactParagraphPlain caseSensitive ps para
    (acc.1 ++ [r.1], acc.2 || r.2.2)
  let out := doc.foldl step ([], false)
  { doc := out.1, made := out.2, success := true }

/-- Invariant carried through the pattern loop of the plain redactor: the
working text keeps its length, every recorded span is in bounds, and every
position inside a recorded span already holds the mask character. -/
def PlainInv (L : Nat) (acc : PlainAcc) : Prop :=
  acc.text.length = L ∧ SpansInBounds L acc.spans ∧
  ∀ sp ∈ acc.spans, ∀ i, sp.1 ≤ i → i < sp.1 + sp.2 → acc.text[i]? = some '*'

/-- A paragraph child in the track-changes model.  `run` is an original
`<w:r>` with its `<w:t>` texts; `newRun` is a before/after run created by
the redactor; `delRun` is a `<w:r>` containing `<w:del w:id=rid>` with a
`<w:delText>`; `insRun` is a `<w:r>` containing `<w:ins w:id=rid>` with a
`<w:t>`; `other` is a non-run child (e.g. `<w:pPr>`), not matched by
`findall('.//w:r')`. -/
inductive ChildKind where
  | run (texts : List (List Char))
  | newRun (text : List Char)
  | delRun (rid : Nat) (text : List Char)
  | insRun (rid : Nat) (text : List Char)
  | other
  deriving DecidableEq, Repr

/-- A paragraph child together with the data the redactor reads from it.
`key` models `ElementTree` element identity (used by `list.index` and
`remove`): children present when a paragraph pass starts carry distinct
`some` keys; children created by the redactor carry `none`.  `fmt` is the
run's `<w:rPr>` block, opaque to the redactor (only ever copied). -/
structure PChild where
  key : Option Nat
  fmt : Option Nat
  kind : ChildKind
  deriving DecidableEq, Repr

/-- A paragraph: the ordered list of its children. -/
abbrev Paragraph := List PChild

/-- The `<w:t>` texts below one child, in document order (`elem.iter()`
visits them in document order; `<w:delText>` is not a `<w:t>`). -/
def wtTexts (c : PChild) : List (List Char) :=
  match c.kind with
  | .run ts => ts
  | .newRun t => [t]
  | .delRun _ _ => []
  | .insRun _ t => [t]
  | .other => []

/-- `_extract_text_from_paragraph` on this model: the concatenation of every
`<w:t>` text of the paragraph in document order. -/
def extractFullText (para : Paragraph) : List Char :=
  ((para.map wtTexts).flatten).flatten

/-- The visible text of one run:
`''.join(elem.text or '' for elem in run.findall('.//w:t'))`. -/
def runText (c : PChild) : List Char :=
  (wtTexts c).flatten

/-- Whether `findall('.//w:r')` finds this child. -/
def isRunChild (c : PChild) : Bool :=
  match c.kind with
  | .other => false
  | _ => true

/-- `run_positions` entry: the run's identity, formatting, captured text and
its range in the flattened text. -/
structure RunEntry where
  key : Option Nat
  fmt : Option Nat
  text : List Char
  start : Nat
  stop : Nat
  deriving DecidableEq, Repr

/-- The position-mapping loop of `_apply_redactions_to_paragraph`: assign
each run (in order) the half-open range of the flattened text its text
occupies. -/
def buildRunPositions (pos : Nat) : Paragraph → List RunEntry
  | [] => []
  | c :: rest =>
    if isRunChild c then
      { key := c.key, fmt := c.fmt, text := runText c,
        start := pos, stop := pos + (runText c).length } ::
        buildRunPositions (pos + (runText c).length) rest
    else buildRunPositions pos rest

/-- A redaction position `(start, end, original_text)`. -/
structure Span where
  start : Nat
  stop : Nat
  text : List Char
  deriving DecidableEq, Repr

/-- Stable insertion for descending-by-`start` order. -/
def insertSpanDesc (x : Span) : List Span → List Span
  | [] => [x]
  | y :: ys => if y.start ≤ x.start then x :: y :: ys else y :: insertSpanDesc x ys

/-- `redaction_positions.sort(key=lambda x: x[0], reverse=True)`: stable
descending sort by start offset. -/
def sortSpansDesc (l : List Span) : List Span :=
  l.foldr insertSpanDesc []

/-- Python `list.insert(i, x)` (an index past the end appends). -/
def pyInsert (l : List PChild) (i : Nat) (x : PChild) : List PChild :=
  l.take i ++ x :: l.drop i

/-- `paragraph.remove(run)`: remove the first child with the run's
identity. -/
def removeKey : Paragraph → Nat → Paragraph
  | [], _ => []
  | c :: rest, k => if c.key == some k then rest else c :: removeKey rest k

/-- `list(paragraph).index(run)`, by identity; `none` models the
`ValueError` raised when the element is absent. -/
def idxOfKey (para : Paragraph) (k : Option Nat) : Option Nat :=
  match k with
  | none => none
  | some k => para.findIdx? (fun c => c.key == some k)

/-- Initial value of the revision-id counter (`self.revision_id = 1` in
`__init__`). -/
def initialRevisionId : Nat := 1

/-- `_get_next_revision_id`: return the current id, increment the counter.
(The source stringifies the id for the XML attribute; ids are kept numeric
here.) -/
def getNextRevisionId (st : Nat) : Nat × Nat :=
  (st, st + 1)

/-- `_create_track_change_runs(deleted_text, inserted_text,
preserve_formatting)`: build the deletion run and the insertion run, each
consuming one revision id (the deletion draws first), both copying the
formatting block. -/
def createTrackChangeRuns (deletedText insertedText : List Char)
    (fmt : Option Nat) (st : Nat) : PChild × PChild × Nat :=
  let d := getNextRevisionId st
  let i := getNextRevisionId d.2
  ({ key := none, fmt := fmt, kind := .delRun d.1 deletedText },
   { key := none, fmt := fmt, kind := .insRun i.1 insertedText },
   i.2)

/-- `_remove_text_from_run` applied to one child: join its current texts,
delete `[startPos, endPos)`, store the remainder in the first text element
and clear the others. -/
def removeTextFromChild (c : PChild) (startPos endPos : Nat) : PChild :=
  match c.kind with
  | .run ts =>
    match ts with
    | [] => c
    | _ :: rest =>
      let rt := ts.flatten
      { c with kind := .run ((rt.take startPos ++ rt.drop endPos)
          :: rest.map (fun _ => [])) }
  | .newRun t => { c with kind := .newRun (t.take startPos ++ t.drop endPos) }
  | .insRun rid t => { c with kind := .insRun rid (t.take startPos ++ t.drop endPos) }
  | _ => c

/-- `_remove_text_from_run(run, ...)` with the run located in the paragraph
by identity. -/
def stripKey : Paragraph → Option Nat → Nat → Nat → Paragraph
  | [], _, _, _ => []
  | c :: rest, k, a, b =>
    if c.key == k then removeTextFromChild c a b :: rest
    else c :: stripKey rest k a b

/-- `start < run_end and end > run_start`: does the span touch this run's
range? -/
def spanAffects (sp : Span) (en : RunEntry) : Bool :=
  decide (sp.start < en.stop) && decide (sp.stop > en.start)

/-- The per-span loop of `_apply_redactions_to_paragraph` (spans already
sorted by descending start).  Returns the rewritten paragraph (`none` when
`list.index` raised a `ValueError`, aborting the paragraph pass), the
deletion/insertion pairs created by `_create_track_change_runs`, and the
final revision counter.  In the single-run branch the pair is created before
the `index` call, so it is reported even when the pass then aborts; in the
multi-run branch `index` is called first. -/
def applyGo (rev : Nat) (para : Paragraph) (rm : List RunEntry) :
    List Span → Option Paragraph × List (PChild × PChild) × Nat
  | [] => (some para, [], rev)
  | sp :: rest =>
    match rm.filter (spanAffects sp) with
    | [] => applyGo rev para rm rest
    | [en] =>
      let relStart : Int := (sp.start : Int) - (en.start : Int)
      let relEnd : Int := (sp.stop : Int) - (en.start : Int)
      let beforeText := pySlice en.text 0 relStart
      let redactedText := pySlice en.text relStart relEnd
      let afterText := pySlice en.text relEnd (en.text.length : Int)
      let asterisks := List.replicate sp.text.length '*'
      let cr := createTrackChangeRuns redactedText asterisks en.fmt rev
      match en.key, idxOfKey para en.key with
      | _, none => (none, [(cr.1, cr.2.1)], cr.2.2)
      | none, some _ => (none, [(cr.1, cr.2.1)], cr.2.2)
      | some k, some runIndex =>
        let para1 := removeKey para k
        let step2 :=
          if beforeText.isEmpty then (para1, runIndex)
          else (pyInsert para1 runIndex
            { key := none, fmt := en.fmt, kind := .newRun beforeText },
            runIndex + 1)
        let para3 := pyInsert step2.1 step2.2 cr.1
        let para4 := pyInsert para3 (step2.2 + 1) cr.2.1
        let para5 :=
          if afterText.isEmpty then para4
          else pyInsert para4 (step2.2 + 2)
            { key := none, fmt := en.fmt, kind := .newRun afterText }
        let rm1 := rm.filter (fun en2 => !(en2.key == en.key))
        let res := applyGo cr.2.2 para5 rm1 rest
        (res.1, (cr.1, cr.2.1) :: res.2.1, res.2.2)
    | en1 :: en2 :: afftail =>
      match en1.key, idxOfKey para en1.key with
      | _, none => (none, [], rev)
      | none, some _ => (none, [], rev)
      | some _, some runIndex =>
        let asterisks := List.replicate sp.text.length '*'
        let cr := createTrackChangeRuns sp.text asterisks en1.fmt rev
        let para1 := pyInsert para (runIndex + 1) cr.1
        let para2 := pyInsert para1 (runIndex + 2) cr.2.1
        let para3 := (en1 :: en2 :: afftail).foldl (fun pa en2 =>
          let removeStart : Nat := ((sp.start : Int) - (en2.start : Int)).toNat
          let removeEndI : Int :=
            min (en2.text.length : Int) ((sp.stop : Int) - (en2.start : Int))
          if (removeStart : Int) < removeEndI then
            stripKey pa en2.key removeStart removeEndI.toNat
          else pa) para2
        let res := applyGo cr.2.2 para3 rm rest
        (res.1, (cr.1, cr.2.1) :: res.2.1, res.2.2)

/-- `_apply_redactions_to_paragraph`. -/
def applyRedactionsToParagraph (rev : Nat) (para : Paragraph)
    (positions : List Span) : Option Paragraph × List (PChild × PChild) × Nat :=
  if positions.isEmpty then (some para, [], rev)
  else
    let full := extractFullText para
    let rm := buildRunPositions 0 para
    if full.isEmpty || rm.isEmpty then (some para, [], rev)
    else applyGo rev para rm (sortSpansDesc positions)

/-- Python `str.strip()`: drop whitespace from both ends. -/
def pyStrip (t : List Char) : List Char :=
  (((t.dropWhile Char.isWhitespace).reverse).dropWhile Char.isWhitespace).reverse

/-- Collapse each maximal whitespace run to a single space
(`re.sub(r'\s+', ' ', ·)`); `prevWS` records whether the previous character
belonged to a whitespace run. -/
def collapseWSAux (prevWS : Bool) : List Char → List Char
  | [] => []
  | c :: rest =>
    if c.isWhitespace then
      if prevWS then collapseWSAux true rest
      else ' ' :: collapseWSAux true rest
    else c :: collapseWSAux false rest

/-- `DocumentXMLTrackChangesRedactor._normalize_text`:
`'' if not text else re.sub(r'\s+', ' ', text.strip())`. -/
def normalizeText (t : List Char) : List Char :=
  if t.isEmpty then [] else collapseWSAux false (pyStrip t)

/-- One pattern of the case-sensitive branch of the track-changes
`redact_document_xml`: record every `find`-loop occurrence; then, if the
paragraph's accumulated `redaction_positions` list is still empty and the
normalised pattern occurs in the normalised text, record one fallback span
at `full_text.find(p.strip())` (when that secondary search succeeds). -/
def tcLocateStep (full : List Char) (acc : List Span) (p : List Char) : List Span :=
  let exact := (tcOccurrences full p).map (fun i => Span.mk i (i + p.length) p)
  let acc1 := acc ++ exact
  if acc1.isEmpty && pyContains (normalizeText full) (normalizeText p) then
    match pyFind full (pyStrip p) 0 with
    | some pos => acc1 ++ [Span.mk pos (pos + (pyStrip p).length) (pyStrip p)]
    | none => acc1
  else acc1

/-- All spans recorded for one paragraph by the case-sensitive branch of the
track-changes redactor. -/
def tcLocateCS (full : List Char) (ps : List (List Char)) : List Span :=
  ps.foldl (tcLocateStep full) []

/-- All spans recorded for one paragraph by the case-insensitive branch
(`pattern.finditer(full_text)`, with `matched_text = full_text[start:end]`). -/
def tcLocateCI (full : List Char) (ps : List (List Char)) : List Span :=
  ps.foldl (fun acc p =>
    acc ++ (ciStarts full p).map
      (fun i => Span.mk i (i + p.length) (listSlice full i (i + p.length)))) []

/-- Result of the pure core of the track-changes `redact_document_xml`:
`doc = none` models the `except` path (an exception during a paragraph pass
aborts processing; nothing is written and `False` is returned), so success
is `doc.isSome`. -/
structure TCResult where
  doc : Option (List Paragraph)
  made : Bool
  rev : Nat
  deriving DecidableEq, Repr

/-- The paragraph loop of `DocumentXMLTrackChangesRedactor.redact_document_xml`:
extract each paragraph's text, locate the redaction positions, apply them,
threading the revision-id counter owned by the engine instance. -/
def redactDocumentXmlTC (caseSensitive : Bool) (doc : List Paragraph)
    (ps : List (List Char)) : TCResult :=
  let step := fun (acc : Option (List Paragraph) × Bool × Nat) (para : Paragraph) =>
    match acc.1 with
    | none => acc
    | some processed =>
      let full := extractFullText para
      if full.isEmpty then (some (processed ++ [para]), acc.2.1, acc.2.2)
      else
        let positions := if caseSensitive then tcLocateCS full ps else tcLocateCI full ps
        let made1 := acc.2.1 || !positions.isEmpty
        if positions.isEmpty then (some (processed ++ [para]), made1, acc.2.2)
        else
          let r := applyRedactionsToParagraph acc.2.2 para positions
          match r.1 with
          | none => (none, made1, r.2.2)
          | some para1 => (some (processed ++ [para1]), made1, r.2.2)
  let out := doc.foldl step (some [], false, initialRevisionId)
  { doc := out.1, made := out.2.1, rev := out.2.2 }

/-- A sequence of `_create_track_change_runs` calls against one engine
instance, threading the revision-id counter: returns the emitted
deletion/insertion pairs and the final counter. -/
def emitSequence : List (List Char × List Char × Option Nat) → Nat →
    List (PChild × PChild) × Nat
  | [], st => ([], st)
  | e :: rest, st =>
    let cr := createTrackChangeRuns e.1 e.2.1 e.2.2 st
    let r := emitSequence rest cr.2.2
    ((cr.1, cr.2.1) :: r.1, r.2)

/-- The revision id carried by an emitted deletion or insertion run. -/
def ridOf (c : PChild) : Nat :=
  match c.kind with
  | .delRun r _ => r
  | .insRun r _ => r
  | _ => 0

/-- The text payload carried by an emitted deletion run
(the `<w:delText>` content). -/
def delTextOf (c : PChild) : List Char :=
  match c.kind with
  | .delRun _ t => t
  | _ => []

/-- The text payload carried by an emitted insertion run
(the `<w:t>` content inside `<w:ins>`). -/
def insTextOf (c : PChild) : List Char :=
  match c.kind with
  | .insRun _ t => t
  | _ => []

/-- An `ElementTree` element: tag, optional text, children.  `elem.iter()`
visits the element and then, recursively, its children, in document
order. -/
inductive XmlElem where
  | mk (tag : String) (text : Option (List Char)) (children : List XmlElem)

/-- The tag that `_extract_text_from_paragraph` matches
(`f"{{{self.WORD_NS}}}t"`). -/
def wtTag : String :=
  "{http://schemas.openxmlformats.org/wordprocessingml/2006/main}t"

mutual

/-- The accumulation loop of `_extract_text_from_paragraph`: walk
`paragraph_elem.iter()` and, for every element whose tag is `<w:t>`, append
the element (represented by its optional text) to `text_elements` and
`elem.text or ""` to `text_parts`.  Returns `(text_elements, text_parts)`. -/
def extractAux : XmlElem → List (Option (List Char)) × List (List Char)
  | .mk tag tx children =>
    let rest := extractAuxList children
    if tag = wtTag then (tx :: rest.1, tx.getD [] :: rest.2)
    else rest

/-- `extractAux` over a list of sibling elements, in document order. -/
def extractAuxList : List XmlElem → List (Option (List Char)) × List (List Char)
  | [] => ([], [])
  | e :: es =>
    let r1 := extractAux e
    let r2 := extractAuxList es
    (r1.1 ++ r2.1, r1.2 ++ r2.2)

end

/-- `_extract_text_from_paragraph`: the collected text elements and the
flattened text `''.join(text_parts)`. -/
def extractTextFromParagraph (p : XmlElem) : List (Option (List Char)) × List Char :=
  ((extractAux p).1, (extractAux p).2.flatten)

/-! ## Theorems -/

theorem findFromAux_some {s p : List Char} {fuel i j : Nat}
    (h : findFromAux s p fuel i = some j) :
    i ≤ j ∧ occursAt s p j ∧ ∀ k, i ≤ k → k < j → ¬ occursAt s p k := by
  induction fuel generalizing i with
  | zero => simp [findFromAux] at h
  | succ fuel ih =>
    unfold findFromAux at h
    by_cases hocc : occursAt s p i
    · simp [hocc] at h
      subst h
      exact ⟨Nat.le_refl _, hocc, fun k hk hk' => absurd hk' (Nat.not_lt.mpr hk)⟩
    · simp [hocc] at h
      obtain ⟨h1, h2, h3⟩ := ih h
      refine ⟨Nat.le_trans (Nat.le_succ _) h1, h2, fun k hk hk' => ?_⟩
      rcases Nat.eq_or_lt_of_le hk with rfl | hlt
      · exact hocc
      · exact h3 k hlt hk'

theorem findFromAux_none {s p : List Char} {fuel i : Nat}
    (h : findFromAux s p fuel i = none) :
    ∀ k, i ≤ k → k < i + fuel → ¬ occursAt s p k := by
  induction fuel generalizing i with
  | zero => intro k hk hk'; omega
  | succ fuel ih =>
    unfold findFromAux at h
    by_cases hocc : occursAt s p i
    · simp [hocc] at h
    · simp [hocc] at h
      intro k hk hk'
      rcases Nat.eq_or_lt_of_le hk with rfl | hlt
      · exact hocc
      · exact ih h k hlt (by omega)

theorem occursAt_le_length {s p : List Char} {i : Nat} (h : occursAt s p i) :
    i ≤ s.length := by
  obtain ⟨h1, _⟩ := h; omega

theorem pyFind_some {s p : List Char} {start j : Nat} (h : pyFind s p start = some j) :
    start ≤ j ∧ occursAt s p j ∧ ∀ k, start ≤ k → k < j → ¬ occursAt s p k :=
  findFromAux_some h

theorem pyFind_none {s p : List Char} {start : Nat} (h : pyFind s p start = none) :
    ∀ k, start ≤ k → ¬ occursAt s p k := by
  intro k hk hocc
  have hkl : k ≤ s.length := occursAt_le_length hocc
  exact findFromAux_none h k hk (by omega) hocc

theorem pyFind_isSome {s p : List Char} {start k : Nat}
    (hk : start ≤ k) (hocc : occursAt s p k) : (pyFind s p start).isSome := by
  cases h : pyFind s p start with
  | none => exact absurd hocc (pyFind_none h k hk)
  | some j => rfl

theorem length_maskRange {s : List Char} {st n : Nat} (h : st + n ≤ s.length) :
    (maskRange s st n).length = s.length := by
  simp [maskRange]
  omega

theorem getElem?_maskRange {s : List Char} {st n : Nat} (h : st + n ≤ s.length)
    (i : Nat) :
    (maskRange s st n)[i]? = if st ≤ i ∧ i < st + n then some '*' else s[i]? := by
  unfold maskRange
  have hts : (s.take st).length = st := by simp; omega
  have hrep : (List.replicate n '*').length = n := List.length_replicate _ _
  rw [List.append_assoc, List.getElem?_append, hts]
  by_cases h1 : i < st
  · rw [if_pos h1, List.getElem?_take, if_pos h1, if_neg (by omega)]
  · rw [if_neg h1, List.getElem?_append, hrep]
    by_cases h2 : i < st + n
    · rw [if_pos (by omega), List.getElem?_replicate, if_pos (by omega),
        if_pos (⟨by omega, h2⟩ : st ≤ i ∧ i < st + n)]
    · rw [if_neg (by omega), List.getElem?_drop, if_neg (by omega)]
      congr 1
      omega

theorem getElem?_maskRange_star {s : List Char} {st n : Nat} (h : st + n ≤ s.length)
    {i : Nat} (h1 : st ≤ i) (h2 : i < st + n) :
    (maskRange s st n)[i]? = some '*' := by
  rw [getElem?_maskRange h i, if_pos ⟨h1, h2⟩]

theorem length_maskSpans {s : List Char} {spans : List (Nat × Nat)}
    (h : SpansInBounds s.length spans) : (maskSpans s spans).length = s.length := by
  induction spans generalizing s with
  | nil => rfl
  | cons sp rest ih =>
    have hsp : sp.1 + sp.2 ≤ s.length := h sp (List.mem_cons_self _ _)
    have hlen := length_maskRange hsp
    unfold maskSpans
    rw [List.foldl_cons]
    have := ih (s := maskRange s sp.1 sp.2)
      (by intro q hq; rw [hlen]; exact h q (List.mem_cons_of_mem _ hq))
    unfold maskSpans at this
    rw [this, hlen]

/-- A `'*'` already present survives masking further spans. -/
theorem getElem?_maskSpans_preserve {s : List Char} {spans : List (Nat × Nat)}
    (h : SpansInBounds s.length spans) {i : Nat} (hstar : s[i]? = some '*') :
    (maskSpans s spans)[i]? = some '*' := by
  induction spans generalizing s with
  | nil => exact hstar
  | cons sp rest ih =>
    have hsp : sp.1 + sp.2 ≤ s.length := h sp (List.mem_cons_self _ _)
    have hlen := length_maskRange hsp
    have hrest : SpansInBounds (maskRange s sp.1 sp.2).length rest := by
      intro q hq; rw [hlen]; exact h q (List.mem_cons_of_mem _ hq)
    unfold maskSpans
    rw [List.foldl_cons]
    refine ih hrest ?_
    rw [getElem?_maskRange hsp i]
    split
    · rfl
    · exact hstar

theorem getElem?_maskSpans_star {s : List Char} {spans : List (Nat × Nat)}
    (h : SpansInBounds s.length spans) {st n i : Nat}
    (hmem : (st, n) ∈ spans) (h1 : st ≤ i) (h2 : i < st + n) :
    (maskSpans s spans)[i]? = some '*' := by
  induction spans generalizing s with
  | nil => cases hmem
  | cons sp rest ih =>
    have hsp : sp.1 + sp.2 ≤ s.length := h sp (List.mem_cons_self _ _)
    have hlen := length_maskRange hsp
    have hrest : SpansInBounds (maskRange s sp.1 sp.2).length rest := by
      intro q hq; rw [hlen]; exact h q (List.mem_cons_of_mem _ hq)
    unfold maskSpans
    rw [List.foldl_cons]
    rcases List.mem_cons.mp hmem with heq | hmem'
    · -- the span is masked by this first step; later steps keep the `'*'`
      have hstar : (maskRange s sp.1 sp.2)[i]? = some '*' := by
        rw [← heq] at hsp ⊢
        exact getElem?_maskRange_star hsp h1 h2
      exact getElem?_maskSpans_preserve hrest hstar
    · exact ih hrest hmem'

theorem replaceScanAux_sound {s p : List Char} {fuel start : Nat} :
    ∀ i ∈ replaceScanAux s p fuel start, start ≤ i ∧ occursAt s p i := by
  induction fuel generalizing start with
  | zero => intro i h; cases h
  | succ fuel ih =>
    intro i h
    unfold replaceScanAux at h
    cases hf : pyFind s p start with
    | none => rw [hf] at h; cases h
    | some j =>
      rw [hf] at h
      obtain ⟨hj1, hj2, _⟩ := pyFind_some hf
      rcases List.mem_cons.mp h with rfl | h'
      · exact ⟨hj1, hj2⟩
      · obtain ⟨h1, h2⟩ := ih i h'
        exact ⟨by omega, h2⟩

theorem replaceScanAux_pairwise {s p : List Char} {fuel start : Nat} :
    List.Pairwise (fun a b => a + p.length ≤ b) (replaceScanAux s p fuel start) := by
  induction fuel generalizing start with
  | zero => exact List.Pairwise.nil
  | succ fuel ih =>
    unfold replaceScanAux
    cases hf : pyFind s p start with
    | none => exact List.Pairwise.nil
    | some j =>
      refine List.pairwise_cons.mpr ⟨fun b hb => ?_, ih⟩
      have := (replaceScanAux_sound b hb).1
      have : j + max p.length 1 ≤ b := this
      omega

theorem tcScanAux_sound {s p : List Char} {fuel start : Nat} :
    ∀ i ∈ tcScanAux s p fuel start, start ≤ i ∧ occursAt s p i := by
  induction fuel generalizing start with
  | zero => intro i h; cases h
  | succ fuel ih =>
    intro i h
    unfold tcScanAux at h
    cases hf : pyFind s p start with
    | none => rw [hf] at h; cases h
    | some j =>
      rw [hf] at h
      obtain ⟨hj1, hj2, _⟩ := pyFind_some hf
      rcases List.mem_cons.mp h with rfl | h'
      · exact ⟨hj1, hj2⟩
      · obtain ⟨h1, h2⟩ := ih i h'
        exact ⟨by omega, h2⟩

/-- With enough fuel the `find`/`pos + 1` loop reports exactly the positions
at which the pattern occurs. -/
theorem tcScanAux_mem_iff {s p : List Char} {fuel start : Nat}
    (hfuel : s.length + 2 - start ≤ fuel) (i : Nat) :
    i ∈ tcScanAux s p fuel start ↔ start ≤ i ∧ occursAt s p i := by
  induction fuel generalizing start with
  | zero =>
    simp only [tcScanAux, List.not_mem_nil, false_iff]
    intro ⟨h1, h2⟩
    have := occursAt_le_length h2
    omega
  | succ fuel ih =>
    unfold tcScanAux
    cases hf : pyFind s p start with
    | none =>
      simp only [List.not_mem_nil, false_iff]
      intro ⟨h1, h2⟩
      exact pyFind_none hf i h1 h2
    | some j =>
      obtain ⟨hj1, hj2, hj3⟩ := pyFind_some hf
      have hjlen := occursAt_le_length hj2
      rw [List.mem_cons, ih (by omega)]
      constructor
      · rintro (rfl | ⟨h1, h2⟩)
        · exact ⟨hj1, hj2⟩
        · exact ⟨by omega, h2⟩
      · rintro ⟨h1, h2⟩
        rcases Nat.lt_trichotomy i j with hlt | rfl | hgt
        · exact absurd h2 (hj3 i h1 hlt)
        · exact Or.inl rfl
        · exact Or.inr ⟨hgt, h2⟩

theorem ciScanAux_sound {s p : List Char} {fuel start : Nat} :
    ∀ i ∈ ciScanAux s p fuel start, start ≤ i ∧ ciOccursAt s p i := by
  induction fuel generalizing start with
  | zero => intro i h; cases h
  | succ fuel ih =>
    intro i h
    unfold ciScanAux at h
    cases hf : pyFind (s.map Char.toLower) (p.map Char.toLower) start with
    | none => rw [hf] at h; cases h
    | some j =>
      rw [hf] at h
      obtain ⟨hj1, hj2, _⟩ := pyFind_some hf
      rcases List.mem_cons.mp h with rfl | h'
      · exact ⟨hj1, hj2⟩
      · obtain ⟨h1, h2⟩ := ih i h'
        exact ⟨by omega, h2⟩

theorem occursAt_in_bounds {s p : List Char} {i : Nat} (h : occursAt s p i) :
    i + p.length ≤ s.length := h.1

theorem ciOccursAt_in_bounds {s p : List Char} {i : Nat} (h : ciOccursAt s p i) :
    i + p.length ≤ s.length := by
  have := h.1
  simpa using this

theorem redactStep_inv {L : Nat} {acc : PlainAcc} {cs : Bool} {p : List Char}
    (h : PlainInv L acc) : PlainInv L (redactStep cs acc p) := by
  obtain ⟨hlen, hbound, hmask⟩ := h
  cases cs with
  | true =>
    by_cases hin : pyContains acc.text p = true
    · have hred : redactStep true acc p =
        { text := maskSpans acc.text
            ((replaceStarts acc.text p).map (fun i => (i, p.length))),
          spans := acc.spans ++ (replaceStarts acc.text p).map (fun i => (i, p.length)),
          made := true } := by
        unfold redactStep
        rw [if_pos rfl, if_pos hin]
      rw [hred]
      set ns := (replaceStarts acc.text p).map (fun i => (i, p.length)) with hns
      have hnsb : SpansInBounds acc.text.length ns := by
        intro sp hsp
        rw [hns] at hsp
        obtain ⟨j, hj, rfl⟩ := List.mem_map.mp hsp
        exact occursAt_in_bounds (replaceScanAux_sound j hj).2
      refine ⟨by show (maskSpans acc.text ns).length = L
                 rw [length_maskSpans hnsb, hlen], ?_, ?_⟩
      · intro sp hsp
        rcases List.mem_append.mp hsp with h' | h'
        · exact hbound sp h'
        · rw [← hlen]; exact hnsb sp h'
      · intro sp hsp i hi1 hi2
        rcases List.mem_append.mp hsp with h' | h'
        · exact getElem?_maskSpans_preserve hnsb (hmask sp h' i hi1 hi2)
        · exact getElem?_maskSpans_star hnsb (by cases sp; exact h') hi1 hi2
    · have hred : redactStep true acc p = acc := by
        unfold redactStep
        rw [if_pos rfl, if_neg hin]
      rw [hred]
      exact ⟨hlen, hbound, hmask⟩
  | false =>
    have hred : redactStep false acc p =
      { text := maskSpans acc.text
          ((ciStarts acc.text p).map (fun i => (i, p.length))).reverse,
        spans := acc.spans ++ (ciStarts acc.text p).map (fun i => (i, p.length)),
        made := acc.made ||
          !((ciStarts acc.text p).map (fun i => (i, p.length))).isEmpty } := by
      unfold redactStep
      rw [if_neg (by simp)]
    rw [hred]
    set ns := (ciStarts acc.text p).map (fun i => (i, p.length)) with hns
    have hnsb : SpansInBounds acc.text.length ns.reverse := by
      intro sp hsp
      rw [List.mem_reverse] at hsp
      rw [hns] at hsp
      obtain ⟨j, hj, rfl⟩ := List.mem_map.mp hsp
      exact ciOccursAt_in_bounds (ciScanAux_sound j hj).2
    refine ⟨by show (maskSpans acc.text ns.reverse).length = L
               rw [length_maskSpans hnsb, hlen], ?_, ?_⟩
    · intro sp hsp
      rcases List.mem_append.mp hsp with h' | h'
      · exact hbound sp h'
      · rw [← hlen]
        exact hnsb sp (List.mem_reverse.mpr h')
    · intro sp hsp i hi1 hi2
      rcases List.mem_append.mp hsp with h' | h'
      · exact getElem?_maskSpans_preserve hnsb (hmask sp h' i hi1 hi2)
      · exact getElem?_maskSpans_star hnsb
          (by cases sp; exact List.mem_reverse.mpr h') hi1 hi2

theorem foldl_redactStep_inv {L : Nat} {acc : PlainAcc} {cs : Bool}
    {ps : List (List Char)} (h : PlainInv L acc) :
    PlainInv L (ps.foldl (redactStep cs) acc) := by
  induction ps generalizing acc with
  | nil => exact h
  | cons p rest ih => exact ih (redactStep_inv h)

theorem redactFullText_inv (cs : Bool) (t : List Char) (ps : List (List Char)) :
    PlainInv t.length (redactFullText cs t ps) := by
  unfold redactFullText
  refine foldl_redactStep_inv ⟨rfl, ?_, ?_⟩
  · intro sp hsp; cases hsp
  · intro sp hsp; cases hsp

theorem listSlice_length (l : List Char) (a b : Nat) :
    (listSlice l a b).length = min (b - a) (l.length - a) := by
  simp [listSlice]

theorem listSlice_zero_length (l : List Char) : listSlice l 0 l.length = l := by
  simp [listSlice]

theorem listSlice_append {l : List Char} {a b c : Nat} (hab : a ≤ b) (hbc : b ≤ c) :
    listSlice l a b ++ listSlice l b c = listSlice l a c := by
  unfold listSlice
  have h1 : c - a = (b - a) + (c - b) := by omega
  rw [h1, List.take_add, List.drop_drop]
  have h2 : a + (b - a) = b := by omega
  rw [h2]

theorem redactTextInElementsAux_length (red : List Char) (pos : Nat)
    (elems : List (List Char)) :
    (redactTextInElementsAux red pos elems).length = elems.length := by
  induction elems generalizing pos with
  | nil => rfl
  | cons t rest ih =>
    unfold redactTextInElementsAux
    by_cases h : t.length = 0
    · simp [h, ih]
    · simp [h, ih]

theorem redactTextInElementsAux_getD (red : List Char) (pos : Nat)
    (elems : List (List Char))
    (hb : pos + elems.flatten.length ≤ red.length) (k : Nat) :
    ((redactTextInElementsAux red pos elems).getD k []).length =
      (elems.getD k []).length := by
  induction elems generalizing pos k with
  | nil => rfl
  | cons t rest ih =>
    rw [List.flatten_cons, List.length_append] at hb
    unfold redactTextInElementsAux
    by_cases h : t.length = 0
    · rw [if_pos h]
      cases k with
      | zero => rfl
      | succ k =>
        rw [List.getD_cons_succ, List.getD_cons_succ]
        exact ih pos (by omega) k
    · rw [if_neg h]
      cases k with
      | zero =>
        rw [List.getD_cons_zero, List.getD_cons_zero, listSlice_length]
        omega
      | succ k =>
        rw [List.getD_cons_succ, List.getD_cons_succ]
        exact ih (pos + t.length) (by omega) k

theorem redactTextInElementsAux_flatten (red : List Char) (pos : Nat)
    (elems : List (List Char))
    (hb : pos + elems.flatten.length ≤ red.length) :
    (redactTextInElementsAux red pos elems).flatten =
      listSlice red pos (pos + elems.flatten.length) := by
  induction elems generalizing pos with
  | nil =>
    simp [redactTextInElementsAux, listSlice]
  | cons t rest ih =>
    rw [List.flatten_cons, List.length_append] at hb
    unfold redactTextInElementsAux
    by_cases h : t.length = 0
    · have ht : t = [] := List.length_eq_zero.mp h
      subst ht
      rw [if_pos h, List.flatten_cons, List.flatten_cons, List.nil_append,
        List.nil_append]
      exact ih pos (by simpa using hb)
    · rw [if_neg h, List.flatten_cons, List.flatten_cons, List.length_append]
      rw [ih (pos + t.length) (by omega)]
      rw [listSlice_append (by omega) (by omega)]
      congr 1
      omega

/-- The flattened text after write-back is exactly the redacted text,
whenever the redacted text has the length of the original flattened text. -/
theorem flatten_redactTextInElements (elems : List (List Char)) (red : List Char)
    (hlen : red.length = elems.flatten.length) :
    (redactTextInElements elems elems.flatten red).flatten = red := by
  unfold redactTextInElements
  by_cases hc : (elems.isEmpty || (elems.flatten == red)) = true
  · rw [if_pos hc]
    rcases Bool.or_eq_true_iff.mp hc with hemp | hbeq
    · have he : elems = [] := by
        cases elems with
        | nil => rfl
        | cons t rest => simp at hemp
      subst he
      have : red = [] := by
        apply List.length_eq_zero.mp
        rw [hlen]
        rfl
      simp [this]
    · exact eq_of_beq hbeq
  · rw [if_neg hc]
    rw [redactTextInElementsAux_flatten red 0 elems (by omega)]
    have h0 : 0 + elems.flatten.length = red.length := by omega
    rw [h0]
    have h1 : listSlice red 0 red.length = red := listSlice_zero_length red
    simpa using h1

theorem redactParagraphPlain_fst (cs : Bool) (ps elems : List (List Char))
    (hg : ¬ (elems.flatten.isEmpty || elems.isEmpty) = true) :
    (redactParagraphPlain cs ps elems).1 =
      redactTextInElements elems elems.flatten
        (redactFullText cs elems.flatten ps).text := by
  unfold redactParagraphPlain
  rw [if_neg hg]

theorem redactParagraphPlain_spans (cs : Bool) (ps elems : List (List Char))
    (hg : ¬ (elems.flatten.isEmpty || elems.isEmpty) = true) :
    (redactParagraphPlain cs ps elems).2.1 =
      (redactFullText cs elems.flatten ps).spans := by
  unfold redactParagraphPlain
  rw [if_neg hg]

/-- **C2.** In plain (masking) mode, for every paragraph and every matched
span recorded by the redactor (`str.replace` consumes non-overlapping
occurrences; the case-insensitive branch replaces non-overlapping `finditer`
matches), the flattened text of the paragraph after redaction has exactly
the length of the flattened text before, and every character position inside
a matched span holds the mask character `'*'` after redaction. -/
theorem plain_mode_length_preservation_and_masking
    (cs : Bool) (ps : List (List Char)) (elems : List (List Char))
    {st n : Nat} (hmem : (st, n) ∈ (redactParagraphPlain cs ps elems).2.1)
    {i : Nat} (h1 : st ≤ i) (h2 : i < st + n) :
    ((redactParagraphPlain cs ps elems).1.flatten).length = elems.flatten.length ∧
    ((redactParagraphPlain cs ps elems).1.flatten)[i]? = some '*' := by
  by_cases hg : (elems.flatten.isEmpty || elems.isEmpty) = true
  · rw [show (redactParagraphPlain cs ps elems).2.1 = [] by
      unfold redactParagraphPlain; rw [if_pos hg]] at hmem
    cases hmem
  · rw [redactParagraphPlain_spans cs ps elems hg] at hmem
    rw [redactParagraphPlain_fst cs ps elems hg]
    obtain ⟨hlen, hbound, hmask⟩ :=
      redactFullText_inv cs elems.flatten ps
    have hflat :
        (redactTextInElements elems elems.flatten
          (redactFullText cs elems.flatten ps).text).flatten =
        (redactFullText cs elems.flatten ps).text :=
      flatten_redactTextInElements elems _ hlen
    rw [hflat]
    exact ⟨hlen, hmask (st, n) hmem i h1 h2⟩

/-- **C9.** In plain (masking) mode, redaction of a paragraph keeps the list
of text elements intact: the number of text elements is unchanged, and each
text element's content is replaced by a string of exactly its original
length (only text payloads are mutated; nothing is added, removed, or
reordered). -/
theorem plain_mode_structure_preservation
    (cs : Bool) (ps : List (List Char)) (elems : List (List Char)) (k : Nat) :
    ((redactParagraphPlain cs ps elems).1).length = elems.length ∧
    (((redactParagraphPlain cs ps elems).1).getD k []).length =
      (elems.getD k []).length := by
  by_cases hg : (elems.flatten.isEmpty || elems.isEmpty) = true
  · rw [show (redactParagraphPlain cs ps elems).1 = elems by
      unfold redactParagraphPlain; rw [if_pos hg]]
    exact ⟨rfl, rfl⟩
  · rw [redactParagraphPlain_fst cs ps elems hg]
    obtain ⟨hlen, _, _⟩ := redactFullText_inv cs elems.flatten ps
    unfold redactTextInElements
    by_cases hc : (elems.isEmpty ||
        (elems.flatten == (redactFullText cs elems.flatten ps).text)) = true
    · rw [if_pos hc]
      exact ⟨rfl, rfl⟩
    · rw [if_neg hc]
      refine ⟨redactTextInElementsAux_length _ _ _, ?_⟩
      exact redactTextInElementsAux_getD
        (redactFullText cs elems.flatten ps).text 0 elems (by omega) k

/-- **C3 (counterexample).** In plain mode, redacting the two-run paragraph
`"My SSN is " + "123-45-6789."` with pattern `"123-45-6789"` does *not*
produce the three runs claimed (`"My SSN is "`, `"***-**-****"`, `"."`):
the plain redactor rewrites text in place and never splits a run. -/
theorem plain_ssn_scenario_counterexample :
    (redactParagraphPlain true ["123-45-6789".toList]
        ["My SSN is ".toList, "123-45-6789.".toList]).1 ≠
      ["My SSN is ".toList, "***-**-****".toList, ".".toList] := by
  decide

/-- **C3 (amended).** In plain mode, for the paragraph with runs
`"My SSN is "` and `"123-45-6789."` and the case-sensitive pattern
`"123-45-6789"`, the first text element is unchanged and the second text
element's content becomes `"***********."` in place (the replacement is
`'*' * len(pattern)`, eleven mask characters — the dashes are masked too);
no new run is created and the trailing `"."` stays inside the second
(rewritten) element. -/
theorem plain_ssn_scenario_amended :
    (redactParagraphPlain true ["123-45-6789".toList]
        ["My SSN is ".toList, "123-45-6789.".toList]).1 =
      ["My SSN is ".toList, "***********.".toList] := by
  decide

/-- **C4 (counterexample).** In the plain redactor's case-sensitive mode
(`str.replace`), scanning resumes at the *end* of a match, not at
`match_start + 1`: in `"aaa"`, the pattern `"aa"` also occurs at position 1
(inside the prior occurrence at 0), but the replacement scan does not
find it. -/
theorem overlap_rescan_counterexample :
    occursAt "aaa".toList "aa".toList 1 ∧
      1 ∉ replaceStarts "aaa".toList "aa".toList := by
  decide

/-- **C4 (amended).** Only the track-changes redactor's case-sensitive
matcher resumes scanning at `match_start + 1`; it therefore reports *every*
position at which a pattern occurs, including overlapping occurrences that
start inside a prior occurrence.  The plain redactor's `str.replace` scan
instead consumes each match in full: consecutive reported occurrences are
always at least a full pattern length apart, so overlapping repeats are not
found there. -/
theorem overlap_rescan_amended :
    (∀ s p : List Char, ∀ i, i ∈ tcOccurrences s p ↔ occursAt s p i) ∧
    (∀ s p : List Char,
      List.Pairwise (fun a b => a + p.length ≤ b) (replaceStarts s p)) := by
  constructor
  · intro s p i
    rw [tcOccurrences, tcScanAux_mem_iff (by omega)]
    constructor
    · rintro ⟨_, h⟩
      exact h
    · intro h
      exact ⟨Nat.zero_le _, h⟩
  · intro s p
    exact replaceScanAux_pairwise

theorem mem_insertSpanDesc {x y : Span} {l : List Span} :
    y ∈ insertSpanDesc x l ↔ y = x ∨ y ∈ l := by
  induction l with
  | nil => simp [insertSpanDesc]
  | cons z zs ih =>
    unfold insertSpanDesc
    by_cases h : z.start ≤ x.start
    · rw [if_pos h]
      simp
    · rw [if_neg h]
      rw [List.mem_cons, ih, List.mem_cons]
      tauto

theorem mem_sortSpansDesc {l : List Span} {x : Span} :
    x ∈ sortSpansDesc l ↔ x ∈ l := by
  induction l with
  | nil => simp [sortSpansDesc]
  | cons y ys ih =>
    unfold sortSpansDesc at ih ⊢
    rw [List.foldr_cons, mem_insertSpanDesc, ih, List.mem_cons]

theorem isRunChild_false_runText {c : PChild} (h : isRunChild c = false) :
    runText c = [] := by
  cases c with
  | mk key fmt kind =>
    cases kind
    case other => rfl
    all_goals simp [isRunChild] at h

theorem extractFullText_eq (para : Paragraph) :
    extractFullText para = (para.map runText).flatten := by
  induction para with
  | nil => rfl
  | cons c rest ih =>
    unfold extractFullText at ih ⊢
    simp only [List.map_cons, List.flatten_cons]
    rw [List.flatten_append, ih]
    rfl

theorem buildRunPositions_facts {cs : Paragraph} :
    ∀ {pos : Nat}, ∀ en ∈ buildRunPositions pos cs,
      en.stop = en.start + en.text.length ∧ pos ≤ en.start := by
  induction cs with
  | nil => intro pos en h; cases h
  | cons c rest ih =>
    intro pos en h
    unfold buildRunPositions at h
    by_cases hc : isRunChild c = true
    · rw [if_pos hc] at h
      rcases List.mem_cons.mp h with rfl | h'
      · exact ⟨rfl, Nat.le_refl _⟩
      · obtain ⟨h1, h2⟩ := ih en h'
        exact ⟨h1, by omega⟩
    · rw [if_neg hc] at h
      exact ih en h

theorem buildRunPositions_slice {cs : Paragraph} {F : List Char} :
    ∀ {pos : Nat}, F.drop pos = (cs.map runText).flatten →
    ∀ en ∈ buildRunPositions pos cs, listSlice F en.start en.stop = en.text := by
  induction cs with
  | nil => intro pos _ en h; cases h
  | cons c rest ih =>
    intro pos hF en h
    unfold buildRunPositions at h
    have hFc : F.drop pos = runText c ++ (rest.map runText).flatten := by
      rw [hF]; simp
    by_cases hc : isRunChild c = true
    · rw [if_pos hc] at h
      have hdrop : F.drop (pos + (runText c).length) = (rest.map runText).flatten := by
        rw [← List.drop_drop]  -- careful with argument order
        rw [hFc]
        simp
      rcases List.mem_cons.mp h with rfl | h'
      · show listSlice F pos (pos + (runText c).length) = runText c
        unfold listSlice
        rw [hFc]
        have : pos + (runText c).length - pos = (runText c).length := by omega
        rw [this]
        exact List.take_left' rfl
      · exact ih hdrop en h'
    · rw [if_neg hc] at h
      have hrt : runText c = [] := isRunChild_false_runText (by simpa using hc)
      refine ih ?_ en h
      rw [hFc, hrt]
      simp

theorem buildRunPositions_pairwise {cs : Paragraph} {pos : Nat} :
    List.Pairwise (fun a b : RunEntry => a.stop ≤ b.start)
      (buildRunPositions pos cs) := by
  induction cs generalizing pos with
  | nil => exact List.Pairwise.nil
  | cons c rest ih =>
    unfold buildRunPositions
    by_cases hc : isRunChild c = true
    · rw [if_pos hc]
      refine List.pairwise_cons.mpr ⟨fun en hen => ?_, ih⟩
      exact (buildRunPositions_facts en hen).2
    · rw [if_neg hc]
      exact ih

theorem buildRunPositions_src {cs : Paragraph} :
    ∀ {pos : Nat}, ∀ en ∈ buildRunPositions pos cs,
      ∃ c ∈ cs, isRunChild c = true ∧ en.key = c.key ∧ en.fmt = c.fmt ∧
        en.text = runText c := by
  induction cs with
  | nil => intro pos en h; cases h
  | cons c rest ih =>
    intro pos en h
    unfold buildRunPositions at h
    by_cases hc : isRunChild c = true
    · rw [if_pos hc] at h
      rcases List.mem_cons.mp h with rfl | h'
      · exact ⟨c, List.mem_cons_self _ _, hc, rfl, rfl, rfl⟩
      · obtain ⟨d, hd, hrest⟩ := ih en h'
        exact ⟨d, List.mem_cons_of_mem _ hd, hrest⟩
    · rw [if_neg hc] at h
      obtain ⟨d, hd, hrest⟩ := ih en h
      exact ⟨d, List.mem_cons_of_mem _ hd, hrest⟩

theorem pairwise_mem_cases {α : Type} {R : α → α → Prop} :
    ∀ {l : List α}, l.Pairwise R → ∀ {x y : α}, x ∈ l → y ∈ l →
      R x y ∨ R y x ∨ x = y := by
  intro l hl
  induction hl with
  | nil => intro x y hx; cases hx
  | cons hhead htail ih =>
    intro x y hx hy
    rcases List.mem_cons.mp hx with rfl | hx'
    · rcases List.mem_cons.mp hy with rfl | hy'
      · exact Or.inr (Or.inr rfl)
      · exact Or.inl (hhead y hy')
    · rcases List.mem_cons.mp hy with rfl | hy'
      · exact Or.inr (Or.inl (hhead x hx'))
      · exact ih hx' hy'

/-- A run entry touched by a span that is contained in another entry of the
same (pairwise-ordered) map must be that entry. -/
theorem entry_eq_of_affects_of_contains {map : List RunEntry}
    (hpw : List.Pairwise (fun a b : RunEntry => a.stop ≤ b.start) map)
    {A B : RunEntry} (hA : A ∈ map) (hB : B ∈ map)
    {s e : Nat} (haff1 : s < A.stop) (haff2 : e > A.start)
    (hc1 : B.start ≤ s) (hc2 : e ≤ B.stop) : A = B := by
  rcases pairwise_mem_cases hpw hA hB with h | h | h
  · omega
  · omega
  · exact h

theorem spanAffects_iff {sp : Span} {en : RunEntry} :
    spanAffects sp en = true ↔ sp.start < en.stop ∧ sp.stop > en.start := by
  unfold spanAffects
  rw [Bool.and_eq_true, decide_eq_true_iff, decide_eq_true_iff]

theorem filter_eq_singleton_of_pairwise {l : List RunEntry} {p : RunEntry → Bool}
    {a : RunEntry}
    (hpw : List.Pairwise (fun x y : RunEntry => x.stop ≤ y.start) l)
    (hirr : ¬ a.stop ≤ a.start)
    (hmem : a ∈ l) (hpa : p a = true)
    (huniq : ∀ x ∈ l, p x = true → x = a) :
    l.filter p = [a] := by
  induction l with
  | nil => cases hmem
  | cons b t ih =>
    obtain ⟨hhead, htail⟩ := List.pairwise_cons.mp hpw
    by_cases hpb : p b = true
    · have hba : b = a := huniq b (List.mem_cons_self _ _) hpb
      subst hba
      rw [List.filter_cons_of_pos hpb]
      have ht : t.filter p = [] := by
        rw [List.filter_eq_nil_iff]
        intro x hx hpx
        have hxa : x = b := huniq x (List.mem_cons_of_mem _ hx) hpx
        subst hxa
        exact hirr (hhead x hx)
      rw [ht]
    · rw [List.filter_cons_of_neg (by simpa using hpb)]
      have hat : a ∈ t := by
        rcases List.mem_cons.mp hmem with rfl | h'
        · exact absurd hpa hpb
        · exact h'
      exact ih htail hat (fun x hx hpx => huniq x (List.mem_cons_of_mem _ hx) hpx)

theorem findIdx?_isSome_of_mem {l : List PChild} {p : PChild → Bool} {x : PChild}
    (hx : x ∈ l) (hp : p x = true) :
    ∀ i : Nat, (List.findIdx? p l i).isSome := by
  induction l with
  | nil => cases hx
  | cons c rest ih =>
    intro i
    rw [List.findIdx?_cons]
    by_cases hc : p c = true
    · rw [if_pos hc]
      rfl
    · rw [if_neg hc]
      rcases List.mem_cons.mp hx with rfl | h'
      · exact absurd hp hc
      · exact ih h' (i + 1)

theorem pySlice_coe (l : List Char) {a b : Nat} (hab : a ≤ b) (hb : b ≤ l.length) :
    pySlice l (a : Int) (b : Int) = listSlice l a b := by
  unfold pySlice pyIdx listSlice
  rw [if_neg (by omega), if_neg (by omega)]
  have ha' : (a : Int).toNat = a := Int.toNat_ofNat a
  have hb' : (b : Int).toNat = b := Int.toNat_ofNat b
  rw [ha', hb']
  rw [Nat.min_eq_left hb, Nat.min_eq_left (by omega)]
  rw [List.drop_take]

theorem listSlice_nested {F t : List Char} {A s e : Nat}
    (ht : listSlice F A (A + t.length) = t)
    (hs : A ≤ s) (he : e ≤ A + t.length) (hse : s ≤ e) :
    listSlice t (s - A) (e - A) = listSlice F s e := by
  have h1 : t = (F.drop A).take t.length := by
    conv_lhs => rw [← ht]
    unfold listSlice
    congr 1
    omega
  unfold listSlice
  conv_lhs => rw [h1]
  rw [List.drop_take, List.take_take, List.drop_drop]
  have h2 : A + (s - A) = s := by omega
  rw [h2]
  have h3 : min (e - A - (s - A)) (t.length - (s - A)) = e - s := by omega
  rw [h3]

theorem delTextOf_createTrackChangeRuns (d i : List Char) (f : Option Nat) (st : Nat) :
    delTextOf (createTrackChangeRuns d i f st).1 = d := rfl

theorem insTextOf_createTrackChangeRuns (d i : List Char) (f : Option Nat) (st : Nat) :
    insTextOf (createTrackChangeRuns d i f st).2.1 = i := rfl

theorem ridOf_createTrackChangeRuns_del (d i : List Char) (f : Option Nat) (st : Nat) :
    ridOf (createTrackChangeRuns d i f st).1 = st := rfl

theorem ridOf_createTrackChangeRuns_ins (d i : List Char) (f : Option Nat) (st : Nat) :
    ridOf (createTrackChangeRuns d i f st).2.1 = st + 1 := rfl

theorem createTrackChangeRuns_counter (d i : List Char) (f : Option Nat) (st : Nat) :
    (createTrackChangeRuns d i f st).2.2 = st + 2 := rfl

/-- Core of the amended C6: processing a span list whose every span is a
faithful substring of the flattened text and lies inside a single run of the
position map, every emitted deletion/insertion pair carries exactly some
span's original text and a mask of the same length. -/
theorem applyGo_pairs_spec {F : List Char} {map : List RunEntry}
    (hpw : List.Pairwise (fun a b : RunEntry => a.stop ≤ b.start) map)
    (hmap : ∀ en ∈ map, en.stop = en.start + en.text.length ∧
      listSlice F en.start en.stop = en.text) :
    ∀ (spans : List Span) {rm : List RunEntry}, List.Sublist rm map →
      (∀ sp ∈ spans, sp.stop = sp.start + sp.text.length ∧
        listSlice F sp.start sp.stop = sp.text ∧
        ∃ en ∈ map, en.start ≤ sp.start ∧ sp.stop ≤ en.stop) →
      ∀ {rev : Nat} {para : Paragraph} {pr : PChild × PChild},
      pr ∈ (applyGo rev para rm spans).2.1 →
      ∃ sp ∈ spans, delTextOf pr.1 = sp.text ∧
        insTextOf pr.2 = List.replicate sp.text.length '*' := by
  intro spans
  induction spans with
  | nil =>
    intro rm hrm hspans rev para pr hpr
    simp [applyGo] at hpr
  | cons sp rest ih =>
    intro rm hrm hspans rev para pr hpr
    obtain ⟨hsp1, hsp2, B, hBmem, hBc1, hBc2⟩ := hspans sp (List.mem_cons_self _ _)
    have hrest : ∀ q ∈ rest, q.stop = q.start + q.text.length ∧
        listSlice F q.start q.stop = q.text ∧
        ∃ en ∈ map, en.start ≤ q.start ∧ q.stop ≤ en.stop :=
      fun q hq => hspans q (List.mem_cons_of_mem _ hq)
    have hfsub : List.Sublist (rm.filter (spanAffects sp)) map :=
      (List.filter_sublist rm).trans hrm
    unfold applyGo at hpr
    split at hpr
    · -- no affected run: the span is skipped
      obtain ⟨sp', hsp', hprop⟩ := ih hrm hrest hpr
      exact ⟨sp', List.mem_cons_of_mem _ hsp', hprop⟩
    · -- single affected run
      rename_i en heq
      have henf : en ∈ rm.filter (spanAffects sp) := by
        rw [heq]
        exact List.mem_cons_self _ _
      have henrm : en ∈ rm := (List.mem_filter.mp henf).1
      have henmap : en ∈ map := hrm.subset henrm
      obtain ⟨haff1, haff2⟩ := spanAffects_iff.mp (List.mem_filter.mp henf).2
      have heB : en = B :=
        entry_eq_of_affects_of_contains hpw henmap hBmem haff1 haff2 hBc1 hBc2
      obtain ⟨hen1, hen2⟩ := hmap en henmap
      have hc1 : en.start ≤ sp.start := by rw [heB]; exact hBc1
      have hc2 : sp.stop ≤ en.stop := by rw [heB]; exact hBc2
      have hdel : pySlice en.text ((sp.start : Int) - (en.start : Int))
          ((sp.stop : Int) - (en.start : Int)) = sp.text := by
        have e1 : ((sp.start : Int) - (en.start : Int)) =
            ((sp.start - en.start : Nat) : Int) := by omega
        have e2 : ((sp.stop : Int) - (en.start : Int)) =
            ((sp.stop - en.start : Nat) : Int) := by omega
        rw [e1, e2, pySlice_coe _ (by omega) (by omega)]
        rw [listSlice_nested (by rw [← hen1]; exact hen2) hc1 (by omega) (by omega)]
        exact hsp2
      split at hpr
      · -- index lookup failed after the pair was created: only this pair
        rcases List.mem_singleton.mp hpr with rfl
        exact ⟨sp, List.mem_cons_self _ _, hdel, rfl⟩
      · rcases List.mem_singleton.mp hpr with rfl
        exact ⟨sp, List.mem_cons_self _ _, hdel, rfl⟩
      · -- normal single-run rewrite
        rcases List.mem_cons.mp hpr with rfl | hpr'
        · exact ⟨sp, List.mem_cons_self _ _, hdel, rfl⟩
        · have hrm1 : List.Sublist (rm.filter (fun en2 => !(en2.key == en.key))) map :=
            (List.filter_sublist rm).trans hrm
          obtain ⟨sp', hsp', hprop⟩ := ih hrm1 hrest hpr'
          exact ⟨sp', List.mem_cons_of_mem _ hsp', hprop⟩
    · -- two or more affected runs: impossible for a span inside one run
      rename_i en1 en2 afftail heq
      exfalso
      have hpwf : List.Pairwise (fun a b : RunEntry => a.stop ≤ b.start)
          (rm.filter (spanAffects sp)) := hpw.sublist hfsub
      rw [heq] at hpwf
      have hrel : en1.stop ≤ en2.start :=
        (List.pairwise_cons.mp hpwf).1 en2 (List.mem_cons_self _ _)
      have h1f : en1 ∈ rm.filter (spanAffects sp) := by
        rw [heq]
        exact List.mem_cons_self _ _
      have h2f : en2 ∈ rm.filter (spanAffects sp) := by
        rw [heq]
        exact List.mem_cons_of_mem _ (List.mem_cons_self _ _)
      have h1map : en1 ∈ map := hrm.subset (List.mem_filter.mp h1f).1
      have h2map : en2 ∈ map := hrm.subset (List.mem_filter.mp h2f).1
      obtain ⟨h1a, h1b⟩ := spanAffects_iff.mp (List.mem_filter.mp h1f).2
      obtain ⟨h2a, h2b⟩ := spanAffects_iff.mp (List.mem_filter.mp h2f).2
      have he1B : en1 = B :=
        entry_eq_of_affects_of_contains hpw h1map hBmem h1a h1b hBc1 hBc2
      have he2B : en2 = B :=
        entry_eq_of_affects_of_contains hpw h2map hBmem h2a h2b hBc1 hBc2
      rw [he1B, he2B] at hrel
      rw [he1B] at h1a h1b
      omega

theorem entry_stop_le_length {F : List Char} {en : RunEntry}
    (hsl : listSlice F en.start en.stop = en.text)
    (hst : en.stop = en.start + en.text.length)
    (hpos : 0 < en.text.length) : en.stop ≤ F.length := by
  have := congrArg List.length hsl
  rw [listSlice_length] at this
  omega

/-- A span list none of whose spans touches any run of the current position
map is processed without any rewrite or emission. -/
theorem applyGo_of_unaffected {rm : List RunEntry} {spans : List Span}
    (h : ∀ sp ∈ spans, rm.filter (spanAffects sp) = []) (rev : Nat)
    (para : Paragraph) : applyGo rev para rm spans = (some para, [], rev) := by
  induction spans with
  | nil => rfl
  | cons sp rest ih =>
    unfold applyGo
    rw [h sp (List.mem_cons_self _ _)]
    exact ih (fun q hq => h q (List.mem_cons_of_mem _ hq))

theorem buildRunPositions_ne_nil {para : Paragraph} {A : RunEntry}
    (hA : A ∈ buildRunPositions 0 para) :
    (buildRunPositions 0 para).isEmpty = false := by
  cases h : buildRunPositions 0 para with
  | nil => rw [h] at hA; cases hA
  | cons _ _ => rfl

/-- **C6 (amended).** In revision (track-changes) mode, provided every
redaction span is a faithful substring of the paragraph's flattened text and
lies within a single run of the position map, every emitted
deletion/insertion pair consists of a deleted-text container whose content
exactly equals the original matched substring and an inserted-text container
holding a mask of identical length.  (Without the single-run proviso the
deletion text can be truncated to one run's bounds, see the
counterexample.) -/
theorem track_changes_pair_content (rev : Nat) (para : Paragraph)
    (positions : List Span)
    (hval : ∀ sp ∈ positions,
      sp.stop = sp.start + sp.text.length ∧
      listSlice (extractFullText para) sp.start sp.stop = sp.text ∧
      ∃ en ∈ buildRunPositions 0 para, en.start ≤ sp.start ∧ sp.stop ≤ en.stop)
    {pr : PChild × PChild}
    (hpr : pr ∈ (applyRedactionsToParagraph rev para positions).2.1) :
    ∃ sp ∈ positions, delTextOf pr.1 = sp.text ∧
      insTextOf pr.2 = List.replicate sp.text.length '*' := by
  unfold applyRedactionsToParagraph at hpr
  by_cases h0 : positions.isEmpty = true
  · rw [if_pos h0] at hpr
    simp at hpr
  · rw [if_neg h0] at hpr
    by_cases h1 : ((extractFullText para).isEmpty ||
        (buildRunPositions 0 para).isEmpty) = true
    · rw [if_pos h1] at hpr
      simp at hpr
    · rw [if_neg h1] at hpr
      have hmap : ∀ en ∈ buildRunPositions 0 para,
          en.stop = en.start + en.text.length ∧
          listSlice (extractFullText para) en.start en.stop = en.text := by
        intro en hen
        refine ⟨(buildRunPositions_facts en hen).1, ?_⟩
        refine buildRunPositions_slice ?_ en hen
        rw [List.drop_zero, extractFullText_eq]
      obtain ⟨sp, hsp, hprop⟩ :=
        applyGo_pairs_spec buildRunPositions_pairwise hmap
          (sortSpansDesc positions) (List.Sublist.refl _)
          (fun q hq => hval q (mem_sortSpansDesc.mp hq)) hpr
      exact ⟨sp, mem_sortSpansDesc.mp hsp, hprop⟩

/-- **C6 (counterexample).** A paragraph of three runs `"abcdefghij"`,
`"kl"`, `"mnopqrst"` and patterns `"klm"`, `"no"` (both matched literally by
the case-sensitive locator, at positions 10 and 13, non-overlapping): the
span `(13,15)` is processed first and removes the third run from the
position map; the span `(10,13)` then finds only the run `"kl"`, and the
emitted pair's deleted text is `"kl"` — which equals no matched substring,
contradicting the claim that every emitted pair's deleted text equals its
original matched substring. -/
theorem track_changes_deleted_text_counterexample :
    ∃ pr ∈ (applyRedactionsToParagraph 1
        [⟨some 0, none, .run ["abcdefghij".toList]⟩,
         ⟨some 1, none, .run ["kl".toList]⟩,
         ⟨some 2, none, .run ["mnopqrst".toList]⟩]
        (tcLocateCS "abcdefghijklmnopqrst".toList
          ["klm".toList, "no".toList])).2.1,
      ∀ sp ∈ tcLocateCS "abcdefghijklmnopqrst".toList
          ["klm".toList, "no".toList],
        delTextOf pr.1 ≠ sp.text := by
  decide

/-- **C10.** In track-changes mode, when two distinct single-run match spans
fall within the same run of a paragraph, only the span with the greater
start offset is rewritten: the first (later-offset) edit removes the run
from the position map, so the second edit finds no owning run and is
silently skipped — exactly one deletion/insertion pair is emitted, and it
carries the later span's text. -/
theorem same_run_second_span_skipped (rev : Nat) (para : Paragraph)
    {A : RunEntry} {k : Nat}
    (hA : A ∈ buildRunPositions 0 para) (hk : A.key = some k)
    (sp1 sp2 : Span)
    (h1s : A.start ≤ sp1.start) (h1e : sp1.stop ≤ A.stop)
    (h1lt : sp1.start < sp1.stop)
    (h2s : A.start ≤ sp2.start) (h2e : sp2.stop ≤ A.stop)
    (h2lt : sp2.start < sp2.stop)
    (hlt : sp1.start < sp2.start) :
    (applyRedactionsToParagraph rev para [sp1, sp2]).2.1 =
      [((createTrackChangeRuns
          (pySlice A.text ((sp2.start : Int) - (A.start : Int))
            ((sp2.stop : Int) - (A.start : Int)))
          (List.replicate sp2.text.length '*') A.fmt rev).1,
        (createTrackChangeRuns
          (pySlice A.text ((sp2.start : Int) - (A.start : Int))
            ((sp2.stop : Int) - (A.start : Int)))
          (List.replicate sp2.text.length '*') A.fmt rev).2.1)] := by
  have hmapfacts := buildRunPositions_facts A hA
  have hApos : A.start < A.stop := by omega
  have hAlen : 0 < A.text.length := by omega
  have hslice : listSlice (extractFullText para) A.start A.stop = A.text := by
    refine buildRunPositions_slice ?_ A hA
    rw [List.drop_zero, extractFullText_eq]
  have hstop := entry_stop_le_length hslice hmapfacts.1 hAlen
  -- guards of applyRedactionsToParagraph
  have hfull : (extractFullText para).isEmpty = false := by
    cases hF : extractFullText para with
    | nil =>
      rw [hF] at hstop
      simp at hstop
      omega
    | cons _ _ => rfl
  have hrmne := buildRunPositions_ne_nil hA
  unfold applyRedactionsToParagraph
  rw [if_neg (by simp)]
  rw [if_neg (by rw [hfull, hrmne]; simp)]
  -- the sort puts sp2 (greater start) first
  have hsort : sortSpansDesc [sp1, sp2] = [sp2, sp1] := by
    show insertSpanDesc sp1 [sp2] = [sp2, sp1]
    unfold insertSpanDesc
    rw [if_neg (by omega)]
    rfl
  rw [hsort]
  -- the first processed span affects exactly the run A
  have haff2 : (buildRunPositions 0 para).filter (spanAffects sp2) = [A] := by
    refine filter_eq_singleton_of_pairwise buildRunPositions_pairwise
      (by omega) hA (spanAffects_iff.mpr ⟨by omega, by omega⟩) ?_
    intro x hx hpx
    obtain ⟨ha1, ha2⟩ := spanAffects_iff.mp hpx
    exact entry_eq_of_affects_of_contains buildRunPositions_pairwise hx hA
      ha1 ha2 h2s h2e
  have hidx : ∃ j, idxOfKey para A.key = some j := by
    obtain ⟨c, hc, hcrun, hckey, _, _⟩ := buildRunPositions_src A hA
    have hck : c.key = some k := by rw [← hckey]; exact hk
    have hsome := findIdx?_isSome_of_mem (p := fun c' => c'.key == some k)
      hc (by simp [hck]) 0
    have hred : idxOfKey para A.key =
        List.findIdx? (fun c' => c'.key == some k) para := by
      rw [hk]
      rfl
    cases hjj : List.findIdx? (fun c' => c'.key == some k) para with
    | none => rw [hjj] at hsome; cases hsome
    | some j => exact ⟨j, by rw [hred, hjj]⟩
  obtain ⟨j, hj⟩ := hidx
  -- the second span finds no run: A's entry was filtered out of the map
  have hnone : ∀ sp' ∈ [sp1],
      ((buildRunPositions 0 para).filter
        (fun en2 => !(en2.key == A.key))).filter (spanAffects sp') = [] := by
    intro sp' hsp'
    rcases List.mem_singleton.mp hsp' with rfl
    rw [List.filter_eq_nil_iff]
    intro en2 hen2 haffen
    obtain ⟨hen2m, hen2k⟩ := List.mem_filter.mp hen2
    obtain ⟨hb1, hb2⟩ := spanAffects_iff.mp haffen
    have : en2 = A := entry_eq_of_affects_of_contains buildRunPositions_pairwise
      hen2m hA hb1 hb2 h1s h1e
    rw [this] at hen2k
    simp at hen2k
  unfold applyGo
  split
  · rename_i heq
    rw [haff2] at heq
    cases heq
  · rename_i en heq
    rw [haff2] at heq
    have hAen : A = en := by
      injection heq with h1 _
    subst hAen
    split
    case h_1 =>
      rename_i heq2
      rw [hj] at heq2
    case h_2 =>
      rename_i heq2 _
      rw [hk] at heq2
    case h_3 =>
      simp only []
      rw [applyGo_of_unaffected hnone]
  · rename_i en1 en2 afftail heq
    rw [haff2] at heq
    cases heq

theorem extractAuxList_parts (l : List XmlElem)
    (h : ∀ e ∈ l, (extractAux e).2 = (extractAux e).1.map (fun t => t.getD [])) :
    (extractAuxList l).2 = (extractAuxList l).1.map (fun t => t.getD []) := by
  induction l with
  | nil => rfl
  | cons e es ih =>
    unfold extractAuxList
    show (extractAux e).2 ++ (extractAuxList es).2 =
      ((extractAux e).1 ++ (extractAuxList es).1).map (fun t => t.getD [])
    rw [List.map_append, h e (List.mem_cons_self _ _),
      ih (fun x hx => h x (List.mem_cons_of_mem _ hx))]

theorem extractAux_parts : ∀ (n : Nat) (e : XmlElem), sizeOf e ≤ n →
    (extractAux e).2 = (extractAux e).1.map (fun t => t.getD []) := by
  intro n
  induction n with
  | zero =>
    intro e h
    cases e with
    | mk tag tx children => simp at h
  | succ n ih =>
    intro e h
    cases e with
    | mk tag tx children =>
      have hlist := extractAuxList_parts children (fun c hc => by
        refine ih c ?_
        have h1 := List.sizeOf_lt_of_mem hc
        have h2 : sizeOf (XmlElem.mk tag tx children) =
            1 + sizeOf tag + sizeOf tx + sizeOf children := by
          simp
        omega)
      unfold extractAux
      by_cases htag : tag = wtTag
      · rw [if_pos htag]
        rw [List.map_cons, hlist]
      · rw [if_neg htag]
        exact hlist

/-- **C1.** For every paragraph tree (with no edits applied), the flattened
text produced by `_extract_text_from_paragraph` equals the concatenation, in
document order, of the text of every collected `<w:t>` element, an element
with missing text contributing the empty string.  The extraction is a pure
read projection over the tree (a total function of the tree alone). -/
theorem flatten_round_trip (p : XmlElem) :
    (extractTextFromParagraph p).2 =
      ((extractTextFromParagraph p).1.map (fun t => t.getD [])).flatten := by
  unfold extractTextFromParagraph
  rw [extractAux_parts (sizeOf p) p (Nat.le_refl _)]

theorem emitSequence_length (l : List (List Char × List Char × Option Nat))
    (st : Nat) : (emitSequence l st).1.length = l.length := by
  induction l generalizing st with
  | nil => rfl
  | cons e rest ih =>
    unfold emitSequence
    simp [ih]

theorem emitSequence_counter (l : List (List Char × List Char × Option Nat))
    (st : Nat) : (emitSequence l st).2 = st + 2 * l.length := by
  induction l generalizing st with
  | nil => simp [emitSequence]
  | cons e rest ih =>
    unfold emitSequence
    show (emitSequence rest (st + 2)).2 = st + 2 * (e :: rest).length
    rw [ih]
    simp
    ring

theorem emitSequence_ids (l : List (List Char × List Char × Option Nat)) :
    ∀ (st k : Nat) (pr : PChild × PChild),
      ((emitSequence l st).1)[k]? = some pr →
      ridOf pr.1 = st + 2 * k ∧ ridOf pr.2 = st + 2 * k + 1 := by
  induction l with
  | nil =>
    intro st k pr h
    simp [emitSequence] at h
  | cons e rest ih =>
    intro st k pr h
    unfold emitSequence at h
    cases k with
    | zero =>
      simp at h
      subst h
      rw [ridOf_createTrackChangeRuns_del, ridOf_createTrackChangeRuns_ins]
      simp
    | succ k =>
      simp only [List.getElem?_cons_succ] at h
      rw [createTrackChangeRuns_counter] at h
      obtain ⟨h1, h2⟩ := ih (st + 2) k pr h
      constructor
      · rw [h1]; ring
      · rw [h2]; ring

/-- **C5.** For one engine instance, the revision-id counter starts at 1
(`initialRevisionId`) and is incremented exactly once per emitted deletion or
insertion element: over any sequence of emissions, the `k`-th
deletion/insertion pair consumes the two consecutive identifiers
`2*k + 1` (deletion — the lower one) and `2*k + 2` (insertion), so
identifiers are strictly increasing across all pairs emitted by that
instance, and the final counter is `1 + 2 * (number of pairs)`. -/
theorem revision_id_sequence (l : List (List Char × List Char × Option Nat))
    {k : Nat} {pr : PChild × PChild}
    (h : ((emitSequence l initialRevisionId).1)[k]? = some pr) :
    ridOf pr.1 = 2 * k + 1 ∧ ridOf pr.2 = 2 * k + 2 ∧
      (emitSequence l initialRevisionId).2 = 1 + 2 * l.length := by
  obtain ⟨h1, h2⟩ := emitSequence_ids l initialRevisionId k pr h
  refine ⟨?_, ?_, emitSequence_counter l initialRevisionId⟩
  · rw [h1]; unfold initialRevisionId; ring
  · rw [h2]; unfold initialRevisionId; ring

theorem redactParagraphPlain_no_patterns (cs : Bool) (elems : List (List Char)) :
    redactParagraphPlain cs [] elems = (elems, [], false) := by
  unfold redactParagraphPlain
  by_cases hg : (elems.flatten.isEmpty || elems.isEmpty) = true
  · rw [if_pos hg]
  · rw [if_neg hg]
    show (redactTextInElements elems elems.flatten elems.flatten, [], false) = _
    unfold redactTextInElements
    rw [if_pos (by simp)]

theorem redactDocumentXmlPlain_no_patterns (cs : Bool)
    (doc : List (List (List Char))) :
    redactDocumentXmlPlain cs doc [] = ⟨doc, false, true⟩ := by
  unfold redactDocumentXmlPlain
  have haux : ∀ (d : List (List (List Char))) (pre : List (List (List Char))),
      d.foldl (fun acc para =>
        ((acc.1 ++ [(redactParagraphPlain cs [] para).1],
          acc.2 || (redactParagraphPlain cs [] para).2.2))) (pre, false) =
        (pre ++ d, false) := by
    intro d
    induction d with
    | nil => intro pre; simp
    | cons para rest ih =>
      intro pre
      rw [List.foldl_cons]
      rw [redactParagraphPlain_no_patterns cs para]
      show rest.foldl _ (pre ++ [para], false || false) = _
      rw [Bool.or_false]
      rw [ih (pre ++ [para])]
      simp
  show ({ doc := (_ : List (List (List Char)) × Bool).1, made := _, success := true }
      : PlainResult) = _
  rw [haux doc []]
  simp

theorem tcLocate_no_patterns (cs : Bool) (full : List Char) :
    (if cs then tcLocateCS full [] else tcLocateCI full []) = [] := by
  cases cs
  · rfl
  · rfl

theorem redactDocumentXmlTC_no_patterns (cs : Bool) (tdoc : List Paragraph) :
    redactDocumentXmlTC cs tdoc [] =
      ⟨some tdoc, false, initialRevisionId⟩ := by
  unfold redactDocumentXmlTC
  have haux : ∀ (d : List Paragraph) (pre : List Paragraph) (made : Bool) (rev : Nat),
      d.foldl (fun acc para =>
        match acc.1 with
        | none => acc
        | some processed =>
          let full := extractFullText para
          if full.isEmpty then (some (processed ++ [para]), acc.2.1, acc.2.2)
          else
            let positions := if cs then tcLocateCS full [] else tcLocateCI full []
            let made1 := acc.2.1 || !positions.isEmpty
            if positions.isEmpty then (some (processed ++ [para]), made1, acc.2.2)
            else
              let r := applyRedactionsToParagraph acc.2.2 para positions
              match r.1 with
              | none => (none, made1, r.2.2)
              | some para1 => (some (processed ++ [para1]), made1, r.2.2))
        (some pre, made, rev) = (some (pre ++ d), made, rev) := by
    intro d
    induction d with
    | nil => intro pre made rev; simp
    | cons para rest ih =>
      intro pre made rev
      rw [List.foldl_cons]
      by_cases hf : (extractFullText para).isEmpty = true
      · show rest.foldl _ (if (extractFullText para).isEmpty then _ else _) = _
        rw [if_pos hf, ih (pre ++ [para]) made rev]
        simp
      · show rest.foldl _ (if (extractFullText para).isEmpty then _ else _) = _
        rw [if_neg hf, tcLocate_no_patterns cs]
        show rest.foldl _ (some (pre ++ [para]), made || false, rev) = _
        rw [Bool.or_false, ih (pre ++ [para]) made rev]
        simp
  show ({ doc := _, made := _, rev := _ } : TCResult) = _
  rw [haux tdoc [] false initialRevisionId]
  simp

/-- **C7 (counterexample).** With an empty pattern list, the plain redactor
does not surface a failure on a concrete one-paragraph document: it reports
success (`True`) with the document unchanged and `replacements_made = False`
— i.e. the empty-pattern case is a zero-redaction success, not a rejected
input. -/
theorem empty_pattern_list_counterexample :
    (redactDocumentXmlPlain true [[['a']]] []).success = true ∧
    (redactDocumentXmlPlain true [[['a']]] []).doc = [[['a']]] ∧
    (redactDocumentXmlPlain true [[['a']]] []).made = false := by
  decide

/-- **C7 (amended).** If the pattern list is empty, both redactors perform a
zero-redaction success: the document tree is unchanged, no replacement is
recorded, and the operation reports success (no failure is raised, nothing
is transformed). -/
theorem empty_pattern_list_zero_redaction_success (cs : Bool)
    (doc : List (List (List Char))) (tdoc : List Paragraph) :
    redactDocumentXmlPlain cs doc [] = ⟨doc, false, true⟩ ∧
    redactDocumentXmlTC cs tdoc [] = ⟨some tdoc, false, initialRevisionId⟩ :=
  ⟨redactDocumentXmlPlain_no_patterns cs doc,
   redactDocumentXmlTC_no_patterns cs tdoc⟩

/-- **C8 (counterexample).** For the paragraph text `"xy ab"` and patterns
`["xy", " ab "]`: literal matching of `" ab "` yields zero hits, its
whitespace-normalised form (`"ab"`) occurs in the normalised text, and the
secondary search for the stripped pattern succeeds at position 3 — yet the
locator records no fallback span for it, because the earlier pattern `"xy"`
already produced a hit: the fallback is gated on the paragraph's accumulated
position list being empty, not on the individual pattern's hits. -/
theorem normalization_fallback_counterexample :
    tcOccurrences "xy ab".toList " ab ".toList = [] ∧
    pyContains (normalizeText "xy ab".toList) (normalizeText " ab ".toList) = true ∧
    pyFind "xy ab".toList (pyStrip " ab ".toList) 0 = some 3 ∧
    tcLocateCS "xy ab".toList ["xy".toList, " ab ".toList] =
      [Span.mk 0 2 "xy".toList] := by
  decide

/-- **C8 (amended).** In the track-changes variant's case-sensitive mode,
the normalisation fallback for a pattern runs only while the paragraph's
accumulated redaction-position list is empty: when every earlier pattern
contributed nothing and the pattern itself has no literal hit, but its
whitespace-collapsed, trimmed form occurs in the normalised text, a single
span for the stripped pattern is recorded at the position recovered by a
secondary literal search for the stripped pattern in the original
(non-normalised) text. -/
theorem normalization_fallback_gating (full p : List Char)
    (ps : List (List Char)) {pos : Nat}
    (hprev : tcLocateCS full ps = [])
    (hexact : tcOccurrences full p = [])
    (hnorm : pyContains (normalizeText full) (normalizeText p) = true)
    (hfind : pyFind full (pyStrip p) 0 = some pos) :
    tcLocateCS full (ps ++ [p]) =
      [Span.mk pos (pos + (pyStrip p).length) (pyStrip p)] := by
  unfold tcLocateCS at hprev ⊢
  rw [List.foldl_append, hprev, List.foldl_cons, List.foldl_nil]
  unfold tcLocateStep
  rw [hexact]
  simp only [List.map_nil, List.append_nil, List.nil_append]
  rw [if_pos (by rw [hnorm]; rfl), hfind]

/-- Witness for C8: with no earlier patterns, text `"x q"` and pattern
`" q "`, the fallback records the span of the stripped pattern `"q"` at
position 2. -/
theorem normalization_fallback_gating_witness :
    (tcLocateCS "x q".toList [] = [] ∧
     tcOccurrences "x q".toList " q ".toList = [] ∧
     pyContains (normalizeText "x q".toList) (normalizeText " q ".toList) = true ∧
     pyFind "x q".toList (pyStrip " q ".toList) 0 = some 2) ∧
    tcLocateCS "x q".toList ([] ++ [" q ".toList]) =
      [Span.mk 2 (2 + (pyStrip " q ".toList).length) (pyStrip " q ".toList)] :=
  ⟨by decide,
   normalization_fallback_gating "x q".toList " q ".toList []
     (by decide) (by decide) (by decide) (by decide)⟩

/-- Witness for C2: paragraph `["ab", "cd"]`, pattern `"bc"`; the recorded
span `(1, 2)` is masked and the flattened length is preserved. -/
theorem plain_mode_length_preservation_and_masking_witness :
    ((1, 2) ∈ (redactParagraphPlain true ["bc".toList]
        ["ab".toList, "cd".toList]).2.1 ∧ 1 ≤ 1 ∧ 1 < 1 + 2) ∧
    (((redactParagraphPlain true ["bc".toList]
        ["ab".toList, "cd".toList]).1.flatten).length =
        (["ab".toList, "cd".toList] : List (List Char)).flatten.length ∧
      ((redactParagraphPlain true ["bc".toList]
        ["ab".toList, "cd".toList]).1.flatten)[1]? = some '*') :=
  ⟨by decide,
   @plain_mode_length_preservation_and_masking true ["bc".toList]
     ["ab".toList, "cd".toList] 1 2 (by decide) 1 (by decide) (by decide)⟩

/-- Witness for C6: a single-run paragraph `"abcdef"` with the span
`(1, 3, "bc")`; the emitted pair deletes `"bc"` and inserts `"**"`. -/
theorem track_changes_pair_content_witness :
    ((∀ sp ∈ [Span.mk 1 3 "bc".toList],
        sp.stop = sp.start + sp.text.length ∧
        listSlice (extractFullText [⟨some 0, none, .run ["abcdef".toList]⟩])
          sp.start sp.stop = sp.text ∧
        ∃ en ∈ buildRunPositions 0 [⟨some 0, none, .run ["abcdef".toList]⟩],
          en.start ≤ sp.start ∧ sp.stop ≤ en.stop) ∧
      ((⟨none, none, .delRun 1 "bc".toList⟩,
        ⟨none, none, .insRun 2 "**".toList⟩) : PChild × PChild) ∈
        (applyRedactionsToParagraph 1 [⟨some 0, none, .run ["abcdef".toList]⟩]
          [Span.mk 1 3 "bc".toList]).2.1) ∧
    ∃ sp ∈ [Span.mk 1 3 "bc".toList],
      delTextOf (⟨none, none, .delRun 1 "bc".toList⟩ : PChild) = sp.text ∧
      insTextOf (⟨none, none, .insRun 2 "**".toList⟩ : PChild) =
        List.replicate sp.text.length '*' :=
  ⟨by decide,
   @track_changes_pair_content 1 [⟨some 0, none, .run ["abcdef".toList]⟩]
     [Span.mk 1 3 "bc".toList] (by decide)
     (⟨none, none, .delRun 1 "bc".toList⟩, ⟨none, none, .insRun 2 "**".toList⟩)
     (by decide)⟩

/-- Witness for C10: a one-run paragraph `"abcdef"` with spans `(1,2,"b")`
and `(3,5,"de")` in the same run: only the later-offset span `(3,5)` is
rewritten. -/
theorem same_run_second_span_skipped_witness :
    ((⟨some 0, none, "abcdef".toList, 0, 6⟩ : RunEntry) ∈
        buildRunPositions 0 [⟨some 0, none, .run ["abcdef".toList]⟩] ∧
      (⟨some 0, none, "abcdef".toList, 0, 6⟩ : RunEntry).key = some 0) ∧
    (applyRedactionsToParagraph 5 [⟨some 0, none, .run ["abcdef".toList]⟩]
        [Span.mk 1 2 "b".toList, Span.mk 3 5 "de".toList]).2.1 =
      [((createTrackChangeRuns
          (pySlice "abcdef".toList ((3 : Int) - (0 : Int)) ((5 : Int) - (0 : Int)))
          (List.replicate "de".toList.length '*') none 5).1,
        (createTrackChangeRuns
          (pySlice "abcdef".toList ((3 : Int) - (0 : Int)) ((5 : Int) - (0 : Int)))
          (List.replicate "de".toList.length '*') none 5).2.1)] :=
  ⟨by decide,
   @same_run_second_span_skipped 5 [⟨some 0, none, .run ["abcdef".toList]⟩]
     ⟨some 0, none, "abcdef".toList, 0, 6⟩ 0 (by decide) (by decide)
     (Span.mk 1 2 "b".toList) (Span.mk 3 5 "de".toList)
     (by decide) (by decide) (by decide) (by decide) (by decide) (by decide)
     (by decide)⟩

/-- Witness for C5 at a concrete emission sequence: two pairs, the second
pair (index 1) carries ids 3 and 4. -/
theorem revision_id_sequence_witness :
    ((emitSequence [(['a'], ['*'], none), (['b', 'c'], ['*', '*'], some 7)]
        initialRevisionId).1)[1]? =
      some (⟨none, some 7, .delRun 3 ['b', 'c']⟩,
            ⟨none, some 7, .insRun 4 ['*', '*']⟩) ∧
    (ridOf (⟨none, some 7, .delRun 3 ['b', 'c']⟩ : PChild) = 2 * 1 + 1 ∧
     ridOf (⟨none, some 7, .insRun 4 ['*', '*']⟩ : PChild) = 2 * 1 + 2 ∧
     (emitSequence [(['a'], ['*'], none), (['b', 'c'], ['*', '*'], some 7)]
        initialRevisionId).2 = 1 + 2 * 2) :=
  ⟨by decide,
   @revision_id_sequence [(['a'], ['*'], none), (['b', 'c'], ['*', '*'], some 7)]
     1 (⟨none, some 7, .delRun 3 ['b', 'c']⟩, ⟨none, some 7, .insRun 4 ['*', '*']⟩)
     (by decide)⟩

end DocxTools
